import Mathlib

/-!
Verification of the experiment-identity and atomic-persistence utilities
(haven_utils): cartesian grid expansion, canonical configuration hashing,
duplicate detection, recursive subset matching, and the rename-based
atomic write protocol.

Configurations are nested string-keyed mappings of scalars, lists and
sub-mappings; a Python dict is embedded as an association list in insertion
order whose keys are unique. External library functions (hashlib.md5,
pickle.dump/load, torch.save/load) are pure collaborators and enter the
embedding as explicit function parameters.
-/

/-- A Python value as it appears in an experiment configuration: a string,
integer or boolean scalar, a list, or a string-keyed dictionary
(association list in insertion order; keys are unique as in a Python dict). -/
inductive PyVal where
  | vstr  : String → PyVal
  | vint  : Int → PyVal
  | vbool : Bool → PyVal
  | vlist : List PyVal → PyVal
  | vdict : List (String × PyVal) → PyVal

/-- A configuration: the entry list of a Python dict. -/
abbrev Dict := List (String × PyVal)

mutual
/-- Python str() of a value: a bare string for str, decimal for int,
True/False for bool, and the bracketed comma-separated repr of the
elements for a list (str and repr agree on containers). -/
def pyStr : PyVal → String
  | .vstr s => s
  | .vint n => toString n
  | .vbool b => if b then "True" else "False"
  | .vlist xs => "[" ++ String.intercalate ", " (pyReprList xs) ++ "]"
  | .vdict d => "\x7b" ++ String.intercalate ", " (pyReprDict d) ++ "\x7d"

/-- Python repr() of a value: like str() except that a string is quoted. -/
def pyRepr : PyVal → String
  | .vstr s => "'" ++ s ++ "'"
  | .vint n => toString n
  | .vbool b => if b then "True" else "False"
  | .vlist xs => "[" ++ String.intercalate ", " (pyReprList xs) ++ "]"
  | .vdict d => "\x7b" ++ String.intercalate ", " (pyReprDict d) ++ "\x7d"

/-- repr() of each element of a list. -/
def pyReprList : List PyVal → List String
  | [] => []
  | v :: vs => pyRepr v :: pyReprList vs

/-- repr() of each binding of a dict, as Python prints dict items. -/
def pyReprDict : List (String × PyVal) → List String
  | [] => []
  | (k, v) :: kvs => ("'" ++ k ++ "': " ++ pyRepr v) :: pyReprDict kvs
end

/-- Whether a path component is absolute (starts with "/"). -/
def startsWithSlash (b : String) : Bool :=
  match b.data with
  | [] => false
  | c :: _ => c == '/'

/-- Whether a path component already ends with the separator "/". -/
def endsWithSlash (a : String) : Bool :=
  match a.data.getLast? with
  | some c => c == '/'
  | none => false

/-- os.path.join on two components, POSIX rules: an absolute second
component discards the first; otherwise one "/" is inserted unless the
first component is empty or already ends in "/". -/
def ospathjoin (a b : String) : String :=
  if startsWithSlash b then b
  else if a.data.isEmpty || endsWithSlash a then a ++ b
  else a ++ "/" ++ b

/-- Python's lexicographic string comparison, by Unicode code point, on the
character lists of the two strings (the order sorted() uses on keys). -/
def charsLt : List Char → List Char → Bool
  | _, [] => false
  | [], _ :: _ => true
  | a :: as, b :: bs =>
      if a.toNat < b.toNat then true
      else if b.toNat < a.toNat then false
      else charsLt as bs

/-- Python's s1 <= s2 on strings: not (s2 < s1). -/
def strLE (s t : String) : Prop := charsLt t.data s.data = false

instance : DecidableRel strLE := fun s t =>
  inferInstanceAs (Decidable (charsLt t.data s.data = false))

/-- The order in which hash_dict visits entries: by key, as Python's
sorted() orders the keys of the dict. -/
def keyLE (x y : String × String) : Prop := strLE x.1 y.1

instance : DecidableRel keyLE := fun x y => inferInstanceAs (Decidable (strLE x.1 y.1))

/-- The strict key order: the key of the first pair is strictly below the
key of the second. -/
def keyLT (x y : String × String) : Prop := charsLt x.1.data y.1.data = true

/-- Entries of a dict in sorted key order (sorted(exp_dict.keys()) followed
by the d[k] lookups; keys of a Python dict are unique, so sorting the
(key, contribution) pairs by key is the same visit order). -/
def sortPairs (l : List (String × String)) : List (String × String) :=
  List.insertionSort keyLE l

/-- The accumulation dict2hash += os.path.join(str(k), str(v)) over a list
of (key, contributed string) pairs, starting from the empty string. -/
def joinEntries (l : List (String × String)) : String :=
  l.foldl (fun acc kv => acc ++ ospathjoin kv.1 kv.2) ""

mutual
/-- The string hash_dict's loop contributes for one value: the recursively
computed identity (hash_dict) for a nested dict, str(v) for anything else.
`md5` is hashlib's hexdigest on strings, an external collaborator passed
as a parameter. -/
def hvalStr (md5 : String → String) : PyVal → String
  | .vdict d => md5 (joinEntries (sortPairs (hentriesAux md5 d)))
  | v => pyStr v
termination_by structural v => v

/-- The (key, contributed string) pair of every entry of a dict. -/
def hentriesAux (md5 : String → String) : List (String × PyVal) → List (String × String)
  | [] => []
  | (k, v) :: rest => (k, hvalStr md5 v) :: hentriesAux md5 rest
termination_by structural l => l
end

/-- The canonical preimage string built by hash_dict: every entry visited
in sorted key order contributes os.path.join(str(k), str(v)), concatenated
with no separator in between. -/
def dict2hash (md5 : String → String) (d : Dict) : String :=
  joinEntries (sortPairs (hentriesAux md5 d))

/-- hash_dict: the md5 hexdigest of the canonical concatenation. -/
def hash_dict (md5 : String → String) (d : Dict) : String :=
  md5 (dict2hash md5 d)

/-- A concrete digest instantiation (the identity on strings) used to state
closed facts about the hashing pipeline. The collisions exhibited below are
collisions of the canonical preimage strings themselves, so they persist
for every digest function, the real md5 included. -/
def idDigest (s : String) : String := s

/-- A second, different concrete digest instantiation (string reversal),
used to show that exhibited collisions do not depend on the digest. -/
def revDigest (s : String) : String := String.mk s.data.reverse

/-- A value of the search space as a candidate list: a value that is not
already a list is replaced by the single-element list [value] (the
normalization loop of cartesian_exp_group, acting on the deep copy). -/
def wrapList : PyVal → List PyVal
  | .vlist xs => xs
  | v => [v]

/-- itertools.product over a list of candidate lists: the first list varies
slowest, the last fastest. The product of zero lists is one empty tuple. -/
def pyProduct : List (List PyVal) → List (List PyVal)
  | [] => [[]]
  | l :: ls => l.flatMap (fun x => (pyProduct ls).map (fun rest => x :: rest))

/-- cartesian_exp_group: make every value of the configuration a candidate
list, take the cartesian product of the values in key order, and pair each
combination back with the keys (dict(zip(keys, values))). copy.deepcopy is
the identity on immutable value trees here; the caller-side mutation it
prevents is modelled separately on a store by cartesian_exp_group_store. -/
def cartesian_exp_group (exp_config : Dict) : List Dict :=
  (pyProduct (exp_config.map (fun kv => wrapList kv.2))).map
    (fun combo => (exp_config.map Prod.fst).zip combo)

/-- d.get(k): the binding of k in the dict, None when the key is absent
(keys of a Python dict are unique, so the first binding is the binding). -/
def dictGet (d : Dict) (k : String) : Option PyVal :=
  match d with
  | [] => none
  | (k1, v) :: rest => if k1 = k then some v else dictGet rest k

mutual
/-- Python == on values: structural equality on scalars and lists; two
dicts are equal iff they have the same number of keys and every binding of
the left occurs in the right, regardless of insertion order. -/
def pyEq : PyVal → PyVal → Bool
  | .vstr a, .vstr b => a == b
  | .vint a, .vint b => a == b
  | .vbool a, .vbool b => a == b
  | .vlist a, .vlist b => pyEqList a b
  | .vdict a, .vdict b => (a.length == b.length) && pyEqEntries a b
  | _, _ => false
termination_by structural v => v

/-- Elementwise Python == on two lists. -/
def pyEqList : List PyVal → List PyVal → Bool
  | [], [] => true
  | x :: xs, y :: ys => pyEq x y && pyEqList xs ys
  | _, _ => false
termination_by structural l => l

/-- Every binding of the first dict occurs in the second with == value. -/
def pyEqEntries : List (String × PyVal) → List (String × PyVal) → Bool
  | [], _ => true
  | (k, v) :: rest, d2 =>
      (match dictGet d2 k with
       | some w => pyEq v w
       | none => false) && pyEqEntries rest d2
termination_by structural l => l
end

mutual
/-- One key's check in is_subset's loop, on v1 = d1's value for the key and
v2 = d2.get(k) (None when the key is absent): when neither value is a dict
they must be Python-equal, when both are dicts the check recurses (the
source's recursive call is_subset(v1, v2) leaves strict at its default
False), and a dict/non-dict mismatch — a missing key against a dict
included — fails. -/
def is_subsetVal : PyVal → Option PyVal → Bool
  | .vdict s1, some (.vdict s2) => is_subsetLoop s1 s2
  | .vdict _, _ => false
  | _, some (.vdict _) => false
  | w1, some w2 => pyEq w1 w2
  | _, none => false
termination_by structural v => v

/-- The loop of is_subset over the entries of d1, breaking at the first
failing key. -/
def is_subsetLoop : List (String × PyVal) → Dict → Bool
  | [], _ => true
  | (k, v1) :: rest, d2 => is_subsetVal v1 (dictGet d2 k) && is_subsetLoop rest d2
termination_by structural l => l
end

/-- is_subset from the source: run the loop over d1's entries. The strict
parameter is accepted but never used by the body. -/
def is_subset (d1 d2 : Dict) (_strict : Bool := false) : Bool :=
  is_subsetLoop d1 d2

/-- The spec's per-key tie-break rule of subset matching, one key of the
query against the candidate: equal non-mapping values match, nested
mappings on both sides recurse via is_subset, and a mapping/non-mapping
mismatch (the missing-key sentinel included) fails. Stated from the spec's
words to compare the source's loop against. -/
def spec_key_check (c : Dict) (k : String) (v1 : PyVal) : Bool :=
  match v1, dictGet c k with
  | .vdict s1, some (.vdict s2) => is_subset s1 s2
  | .vdict _, _ => false
  | _, some (.vdict _) => false
  | w1, some w2 => pyEq w1 w2
  | _, none => false

/-- The loop of check_duplicates: hash every dict in order and stop with
ValueError's message at the first identity that is already in the set of
identities seen so far. -/
def checkDupGo (md5 : String → String) : List Dict → List String → Except String Unit
  | [], _ => Except.ok ()
  | d :: rest, seen =>
      let dict_id := hash_dict md5 d
      if dict_id ∈ seen then Except.error "duplicate experiments detected..."
      else checkDupGo md5 rest (dict_id :: seen)

/-- check_duplicates: raises ValueError('duplicate experiments detected...')
when two entries of the list produce the same identity, and returns nothing
otherwise. -/
def check_duplicates (md5 : String → String) (l : List Dict) : Except String Unit :=
  checkDupGo md5 l []

/-- A flat model of the filesystem: each file path maps to its complete
current content; reading finds the most recent write. Directories
(os.makedirs) are not modelled. -/
abbrev FS := List (String × String)

/-- The content at a path, None when the path does not exist. -/
def fsGet : FS → String → Option String
  | [], _ => none
  | (q, c) :: rest, p => if q = p then some c else fsGet rest p

/-- Writing a complete content at a path. -/
def fsSet (fs : FS) (p c : String) : FS := (p, c) :: fs

/-- os.remove: the path no longer exists. -/
def fsRemove (fs : FS) (p : String) : FS :=
  fs.filter (fun qc => !(qc.1 == p))

/-- os.rename src -> dst: dst now holds what src held, src is gone. -/
def fsRename (fs : FS) (src dst : String) : FS :=
  match fsGet fs src with
  | some c => fsSet (fsRemove (fsRemove fs src) dst) dst c
  | none => fs

/-- save_pkl on the filesystem model; `pickle` is pickle.dump's
serialization, an external collaborator. With with_rename the data is
written completely to fname + "_tmp.pth", any pre-existing destination is
removed, and the temp file is renamed onto the destination; without it the
destination is written directly. -/
def save_pkl (pickle : String → String) (fs : FS) (fname data : String)
    (with_rename : Bool) : FS :=
  if with_rename then
    let fname_tmp := fname ++ "_tmp.pth"
    let fs1 := fsSet fs fname_tmp (pickle data)
    let fs2 := fsRemove fs1 fname
    fsRename fs2 fname_tmp fname
  else
    fsSet fs fname (pickle data)

/-- load_pkl: FileNotFoundError when the path does not exist, otherwise
pickle.load of the stored bytes (`unpickle`, the external deserializer). -/
def load_pkl (unpickle : String → String) (fs : FS) (fname : String) :
    Except String String :=
  match fsGet fs fname with
  | none => Except.error "FileNotFoundError"
  | some bytes => Except.ok (unpickle bytes)

/-- Every filesystem state observable while save_pkl (with_rename) runs:
the initial state, the temp file holding every partial k-character write of
the pickled bytes (where a crash of pickle.dump can stop), the completed
temp file, the state after the destination is removed, and the state after
the rename. -/
def save_pkl_states (pickle : String → String) (fs : FS) (fname data : String) :
    List FS :=
  fs :: ((List.range ((pickle data).length + 1)).map
      (fun k => fsSet fs (fname ++ "_tmp.pth") ((pickle data).take k))) ++
    [fsSet fs (fname ++ "_tmp.pth") (pickle data),
     fsRemove (fsSet fs (fname ++ "_tmp.pth") (pickle data)) fname,
     fsRename (fsRemove (fsSet fs (fname ++ "_tmp.pth") (pickle data)) fname)
       (fname ++ "_tmp.pth") fname]

/-- torch_save: the same rename protocol with temp name fname + ".tmp" and
torch.save's serialization (`torchPickle`, an external collaborator). -/
def torch_save (torchPickle : String → String) (fs : FS) (fname obj : String) : FS :=
  let fname_tmp := fname ++ ".tmp"
  let fs1 := fsSet fs fname_tmp (torchPickle obj)
  let fs2 := fsRemove fs1 fname
  fsRename fs2 fname_tmp fname

/-- Every filesystem state observable while torch_save runs, with the same
crash points as save_pkl_states. -/
def torch_save_states (torchPickle : String → String) (fs : FS) (fname obj : String) :
    List FS :=
  fs :: ((List.range ((torchPickle obj).length + 1)).map
      (fun k => fsSet fs (fname ++ ".tmp") ((torchPickle obj).take k))) ++
    [fsSet fs (fname ++ ".tmp") (torchPickle obj),
     fsRemove (fsSet fs (fname ++ ".tmp") (torchPickle obj)) fname,
     fsRename (fsRemove (fsSet fs (fname ++ ".tmp") (torchPickle obj)) fname)
       (fname ++ ".tmp") fname]

/-- A store of top-level dict objects, object id to current entry list.
cartesian_exp_group's only mutation, exp_config_copy[k] = [v], assigns a
top-level entry of the copied dict object, and nested objects are never
mutated, so one cell per dict captures the heap effects; copy.deepcopy
guarantees the copy shares no mutable cell with the argument. -/
abbrev Store := List (Nat × Dict)

/-- The current value of an object id, None when the id is not allocated. -/
def storeGet : Store → Nat → Option Dict
  | [], _ => none
  | (q, d) :: rest, r => if q = r then some d else storeGet rest r

/-- Updating (or allocating) an object id. -/
def storeSet (st : Store) (r : Nat) (d : Dict) : Store := (r, d) :: st

/-- An object id not yet allocated in the store (deepcopy's fresh object). -/
def freshId (st : Store) : Nat := (st.map Prod.fst).foldr max 0 + 1

/-- cartesian_exp_group acting on the store holding the caller's dict at id
r: deepcopy allocates a fresh object with an equal value, the normalization
loop mutates the fresh object only, and the expansion list is computed from
the copy. Returns the store as the call leaves it with the result. -/
def cartesian_exp_group_store (st : Store) (r : Nat) : Store × List Dict :=
  match storeGet st r with
  | none => (st, [])
  | some d =>
      let rc := freshId st
      let st1 := storeSet st rc d
      let dcopy := d.map (fun kv => (kv.1, PyVal.vlist (wrapList kv.2)))
      let st2 := storeSet st1 rc dcopy
      (st2, (pyProduct (dcopy.map (fun kv => wrapList kv.2))).map
        (fun combo => (dcopy.map Prod.fst).zip combo))

/-! ## Order properties of the key comparison -/

/-- Strings with equal character lists are equal. -/
theorem string_eq_of_data_eq (s t : String) (h : s.data = t.data) : s = t := by
  cases s; cases t; simp only at h; rw [h]

/-- charsLt never holds of a list and itself. -/
theorem charsLt_irrefl : ∀ l : List Char, charsLt l l = false
  | [] => rfl
  | a :: as => by simp [charsLt, Nat.lt_irrefl, charsLt_irrefl as]

/-- charsLt is asymmetric. -/
theorem charsLt_asymm : ∀ (a b : List Char), charsLt a b = true → charsLt b a = false
  | _, [], hab => by simp [charsLt] at hab
  | [], _ :: _, _ => rfl
  | a :: as, b :: bs, hab => by
      rcases Nat.lt_trichotomy a.toNat b.toNat with h | h | h
      · simp [charsLt, Nat.lt_asymm h, h]
      · have hc : a = b := Char.eq_of_val_eq (UInt32.ext h)
        subst hc
        simp only [charsLt, Nat.lt_irrefl, if_false] at hab ⊢
        exact charsLt_asymm as bs hab
      · simp [charsLt, h, Nat.lt_asymm h] at hab

/-- charsLt is transitive. -/
theorem charsLt_trans : ∀ (a b c : List Char),
    charsLt a b = true → charsLt b c = true → charsLt a c = true
  | _, [], _, hab, _ => by simp [charsLt] at hab
  | _, _ :: _, [], _, hbc => by simp [charsLt] at hbc
  | [], _ :: _, _ :: _, _, _ => by simp [charsLt]
  | a :: as, b :: bs, c :: cs, hab, hbc => by
      rcases Nat.lt_trichotomy a.toNat b.toNat with h1 | h1 | h1
      · rcases Nat.lt_trichotomy b.toNat c.toNat with h2 | h2 | h2
        · simp [charsLt, Nat.lt_trans h1 h2]
        · have hc : b = c := Char.eq_of_val_eq (UInt32.ext h2)
          subst hc
          simp [charsLt, h1]
        · simp [charsLt, h2, Nat.lt_asymm h2] at hbc
      · have hc : a = b := Char.eq_of_val_eq (UInt32.ext h1)
        subst hc
        simp only [charsLt, Nat.lt_irrefl, if_false] at hab
        rcases Nat.lt_trichotomy a.toNat c.toNat with h2 | h2 | h2
        · simp [charsLt, h2]
        · have hc2 : a = c := Char.eq_of_val_eq (UInt32.ext h2)
          subst hc2
          simp only [charsLt, Nat.lt_irrefl, if_false] at hbc ⊢
          exact charsLt_trans as bs cs hab hbc
        · simp [charsLt, h2, Nat.lt_asymm h2] at hbc
      · simp [charsLt, h1, Nat.lt_asymm h1] at hab

/-- Lists on which charsLt holds in neither direction are equal. -/
theorem charsLt_eq_of_ff : ∀ (a b : List Char),
    charsLt a b = false → charsLt b a = false → a = b
  | [], [], _, _ => rfl
  | [], _ :: _, hab, _ => by simp [charsLt] at hab
  | _ :: _, [], _, hba => by simp [charsLt] at hba
  | a :: as, b :: bs, hab, hba => by
      rcases Nat.lt_trichotomy a.toNat b.toNat with h | h | h
      · simp [charsLt, h] at hab
      · have hc : a = b := Char.eq_of_val_eq (UInt32.ext h)
        subst hc
        simp only [charsLt, Nat.lt_irrefl, if_false] at hab hba
        rw [charsLt_eq_of_ff as bs hab hba]
      · simp [charsLt, h] at hba

/-- keyLE is total. -/
theorem keyLE_total (x y : String × String) : keyLE x y ∨ keyLE y x := by
  cases h : charsLt y.1.data x.1.data
  · exact Or.inl h
  · exact Or.inr (charsLt_asymm _ _ h)

/-- keyLE is transitive. -/
theorem keyLE_trans (x y z : String × String) (hxy : keyLE x y) (hyz : keyLE y z) :
    keyLE x z := by
  unfold keyLE strLE at hxy hyz ⊢
  cases h : charsLt z.1.data x.1.data
  · rfl
  · exfalso
    cases h2 : charsLt y.1.data z.1.data
    · have : y.1.data = z.1.data := charsLt_eq_of_ff _ _ h2 hyz
      rw [← this] at h
      rw [h] at hxy
      exact Bool.noConfusion hxy
    · have : charsLt y.1.data x.1.data = true := charsLt_trans _ _ _ h2 h
      rw [this] at hxy
      exact Bool.noConfusion hxy

/-- keyLE together with distinct keys gives keyLT. -/
theorem keyLT_of_keyLE_ne (x y : String × String) (hle : keyLE x y) (hne : x.1 ≠ y.1) :
    keyLT x y := by
  unfold keyLE strLE at hle
  unfold keyLT
  cases h : charsLt x.1.data y.1.data
  · exact absurd (string_eq_of_data_eq _ _ (charsLt_eq_of_ff _ _ h hle)) hne
  · rfl

/-! ## hash_dict: determinism, key-order independence, collisions -/

/-- hentriesAux maps every entry to its (key, contributed string) pair. -/
theorem hentriesAux_eq_map (md5 : String → String) (l : List (String × PyVal)) :
    hentriesAux md5 l = l.map (fun kv => (kv.1, hvalStr md5 kv.2)) := by
  induction l with
  | nil => rfl
  | cons kv rest ih =>
      obtain ⟨k, v⟩ := kv
      simp [hentriesAux, ih]

/-- Sorting by key sends permuted entry lists with duplicate-free keys to
the same list. -/
theorem sortPairs_eq_of_perm (l1 l2 : List (String × String))
    (hperm : List.Perm l1 l2) (hnd : (l1.map Prod.fst).Nodup) :
    sortPairs l1 = sortPairs l2 := by
  haveI : IsTotal (String × String) keyLE := ⟨keyLE_total⟩
  haveI : IsTrans (String × String) keyLE := ⟨keyLE_trans⟩
  haveI : IsAntisymm (String × String) keyLT := ⟨fun x y hxy hyx => by
    have := charsLt_asymm _ _ hxy
    rw [hyx] at this
    exact Bool.noConfusion this⟩
  have hp1 : List.Perm (sortPairs l1) l1 := List.perm_insertionSort keyLE l1
  have hp2 : List.Perm (sortPairs l2) l2 := List.perm_insertionSort keyLE l2
  have hp : List.Perm (sortPairs l1) (sortPairs l2) :=
    (hp1.trans hperm).trans hp2.symm
  have hs1 : List.Sorted keyLE (sortPairs l1) := List.sorted_insertionSort keyLE l1
  have hs2 : List.Sorted keyLE (sortPairs l2) := List.sorted_insertionSort keyLE l2
  have hnd2 : (l2.map Prod.fst).Nodup := ((hperm.map Prod.fst).nodup_iff).mp hnd
  have hpair1 : (sortPairs l1).Pairwise (fun a b => a.1 ≠ b.1) := by
    have := ((hp1.map Prod.fst).nodup_iff).mpr hnd
    exact (List.pairwise_map).mp this
  have hpair2 : (sortPairs l2).Pairwise (fun a b => a.1 ≠ b.1) := by
    have := ((hp2.map Prod.fst).nodup_iff).mpr hnd2
    exact (List.pairwise_map).mp this
  have hs1lt : List.Sorted keyLT (sortPairs l1) :=
    (hs1.and hpair1).imp (fun h => keyLT_of_keyLE_ne _ _ h.1 h.2)
  have hs2lt : List.Sorted keyLT (sortPairs l2) :=
    (hs2.and hpair2).imp (fun h => keyLT_of_keyLE_ne _ _ h.1 h.2)
  exact List.eq_of_perm_of_sorted hp hs1lt hs2lt

/-- The canonical preimage string is unchanged under re-insertion of the
same bindings in another order, when the keys are duplicate-free. -/
theorem dict2hash_perm (md5 : String → String) (d1 d2 : Dict)
    (hnd : (d1.map Prod.fst).Nodup) (hperm : List.Perm d1 d2) :
    dict2hash md5 d1 = dict2hash md5 d2 := by
  unfold dict2hash
  have hmapperm : List.Perm (hentriesAux md5 d1) (hentriesAux md5 d2) := by
    rw [hentriesAux_eq_map, hentriesAux_eq_map]
    exact hperm.map _
  have hkeys : (hentriesAux md5 d1).map Prod.fst = d1.map Prod.fst := by
    rw [hentriesAux_eq_map, List.map_map]
    rfl
  have hnd1 : ((hentriesAux md5 d1).map Prod.fst).Nodup := by rw [hkeys]; exact hnd
  rw [sortPairs_eq_of_perm _ _ hmapperm hnd1]

/-- Claim C1: for every Configuration, the identity computed by hash_dict is
equal across repeated calls (hash_dict is a pure function of its argument,
stated as the first conjunct), and two mappings built from the same
key/value pairs inserted in different orders — permuted entry lists with
the duplicate-free keys of a Python dict — produce the same identity
string, for every digest function md5. -/
theorem hash_dict_key_order_independent (md5 : String → String) (d1 d2 : Dict)
    (hnd : (d1.map Prod.fst).Nodup) (hperm : List.Perm d1 d2) :
    hash_dict md5 d1 = hash_dict md5 d1 ∧ hash_dict md5 d1 = hash_dict md5 d2 :=
  ⟨rfl, by unfold hash_dict; rw [dict2hash_perm md5 d1 d2 hnd hperm]⟩

/-- Witness for C1: the two insertion orders of a == 1, b == 2 hash alike. -/
theorem hash_dict_key_order_independent_witness :
    hash_dict idDigest [("b", PyVal.vint 2), ("a", PyVal.vint 1)] =
        hash_dict idDigest [("b", PyVal.vint 2), ("a", PyVal.vint 1)]
    ∧ hash_dict idDigest [("b", PyVal.vint 2), ("a", PyVal.vint 1)] =
        hash_dict idDigest [("a", PyVal.vint 1), ("b", PyVal.vint 2)] :=
  hash_dict_key_order_independent idDigest
    [("b", PyVal.vint 2), ("a", PyVal.vint 1)] [("a", PyVal.vint 1), ("b", PyVal.vint 2)]
    (by decide) (List.Perm.swap ("a", PyVal.vint 1) ("b", PyVal.vint 2) [])

/-- Claim C2 is false of the code: hash_dict concatenates the
os.path.join(str(k), str(v)) pieces with no separator between entries, so
the structurally distinct configurations a == 1, b == 2 and a == "1b/2"
already produce the same canonical preimage string "a/1b/2", and therefore
the same identity under every digest (two distinct digests shown; the
second and third conjuncts use no property of the digest since neither
configuration is nested). The first conjunct states the two configurations
are unequal as Python values. -/
theorem hash_dict_collision_on_distinct_configs :
    pyEq (PyVal.vdict [("a", PyVal.vint 1), ("b", PyVal.vint 2)])
        (PyVal.vdict [("a", PyVal.vstr "1b/2")]) = false
    ∧ dict2hash idDigest [("a", PyVal.vint 1), ("b", PyVal.vint 2)] =
        dict2hash idDigest [("a", PyVal.vstr "1b/2")]
    ∧ hash_dict idDigest [("a", PyVal.vint 1), ("b", PyVal.vint 2)] =
        hash_dict idDigest [("a", PyVal.vstr "1b/2")]
    ∧ hash_dict revDigest [("a", PyVal.vint 1), ("b", PyVal.vint 2)] =
        hash_dict revDigest [("a", PyVal.vstr "1b/2")] :=
  ⟨rfl, rfl, rfl, rfl⟩

/-! ## cartesian_exp_group: the grid, edge cases, and the caller's mapping -/

/-- A product over candidate lists one of which is empty is empty. -/
theorem pyProduct_of_mem_nil : ∀ (ls : List (List PyVal)), [] ∈ ls → pyProduct ls = []
  | l :: ls, h => by
      rcases List.mem_cons.mp h with h | h
      · rw [← h]
        rfl
      · simp [pyProduct, pyProduct_of_mem_nil ls h]

/-- Claim C4: the grid over a == [1,2], b == [3,4] is exactly the four
configurations, in product order with the last key varying fastest; a
non-list value is treated as the singleton candidate list, so the grid
over a == 1, b == [1,2,3] is exactly the three configurations, each with
a == 1 (third conjunct); the four-element grid has no duplicates (last
conjunct). -/
theorem cartesian_exp_group_grid :
    cartesian_exp_group [("a", PyVal.vlist [PyVal.vint 1, PyVal.vint 2]),
        ("b", PyVal.vlist [PyVal.vint 3, PyVal.vint 4])] =
      [[("a", PyVal.vint 1), ("b", PyVal.vint 3)], [("a", PyVal.vint 1), ("b", PyVal.vint 4)],
       [("a", PyVal.vint 2), ("b", PyVal.vint 3)], [("a", PyVal.vint 2), ("b", PyVal.vint 4)]]
    ∧ cartesian_exp_group [("a", PyVal.vint 1),
        ("b", PyVal.vlist [PyVal.vint 1, PyVal.vint 2, PyVal.vint 3])] =
      [[("a", PyVal.vint 1), ("b", PyVal.vint 1)], [("a", PyVal.vint 1), ("b", PyVal.vint 2)],
       [("a", PyVal.vint 1), ("b", PyVal.vint 3)]]
    ∧ (∀ cfg ∈ cartesian_exp_group [("a", PyVal.vint 1),
        ("b", PyVal.vlist [PyVal.vint 1, PyVal.vint 2, PyVal.vint 3])],
        dictGet cfg "a" = some (PyVal.vint 1))
    ∧ (cartesian_exp_group [("a", PyVal.vlist [PyVal.vint 1, PyVal.vint 2]),
        ("b", PyVal.vlist [PyVal.vint 3, PyVal.vint 4])]).Nodup := by
  refine ⟨rfl, rfl, ?_, ?_⟩
  · intro cfg h
    have h2 : cfg ∈ [[("a", PyVal.vint 1), ("b", PyVal.vint 1)],
        [("a", PyVal.vint 1), ("b", PyVal.vint 2)],
        [("a", PyVal.vint 1), ("b", PyVal.vint 3)]] := h
    rcases List.mem_cons.mp h2 with h3 | h3
    · rw [h3]; rfl
    rcases List.mem_cons.mp h3 with h4 | h4
    · rw [h4]; rfl
    rcases List.mem_cons.mp h4 with h5 | h5
    · rw [h5]; rfl
    · exact absurd h5 (List.not_mem_nil cfg)
  · show ([[("a", PyVal.vint 1), ("b", PyVal.vint 3)], [("a", PyVal.vint 1), ("b", PyVal.vint 4)],
       [("a", PyVal.vint 2), ("b", PyVal.vint 3)], [("a", PyVal.vint 2), ("b", PyVal.vint 4)]] :
       List Dict).Nodup
    simp [List.nodup_cons, List.mem_cons]

/-- Claim C8: the empty search space yields the one-element list holding
the empty Configuration (the product of zero lists is one empty tuple, not
zero results), and a search space one of whose keys has the empty
candidate list expands to the empty list. -/
theorem cartesian_exp_group_empty_cases (s : Dict)
    (h : ∃ kv ∈ s, kv.2 = PyVal.vlist []) :
    cartesian_exp_group ([] : Dict) = [[]] ∧ cartesian_exp_group s = [] := by
  refine ⟨rfl, ?_⟩
  obtain ⟨kv, hmem, hv⟩ := h
  have hnil : [] ∈ s.map (fun kv => wrapList kv.2) :=
    List.mem_map.mpr ⟨kv, hmem, by rw [hv]; rfl⟩
  unfold cartesian_exp_group
  rw [pyProduct_of_mem_nil _ hnil]
  rfl

/-- Witness for C8: a == [] kills the whole grid, while the empty search
space keeps one empty configuration. -/
theorem cartesian_exp_group_empty_cases_witness :
    cartesian_exp_group ([] : Dict) = [[]]
    ∧ cartesian_exp_group [("a", PyVal.vlist [])] = [] :=
  cartesian_exp_group_empty_cases [("a", PyVal.vlist [])]
    ⟨("a", PyVal.vlist []), List.mem_cons_self _ _, rfl⟩

/-- Every member of a list of naturals is at most the foldr of max over it. -/
theorem le_foldr_max : ∀ (l : List Nat) (x : Nat), x ∈ l → x ≤ l.foldr max 0
  | a :: as, x, h => by
      rcases List.mem_cons.mp h with h | h
      · rw [h]
        exact Nat.le_max_left a (List.foldr max 0 as)
      · exact Nat.le_trans (le_foldr_max as x h) (Nat.le_max_right a _)

/-- An id the store holds a value at occurs among the allocated ids. -/
theorem storeGet_mem : ∀ (st : Store) (r : Nat) (d : Dict),
    storeGet st r = some d → r ∈ st.map Prod.fst
  | (q, v) :: rest, r, d, h => by
      by_cases hq : q = r
      · rw [hq]
        exact List.mem_cons_self r _
      · simp only [storeGet, if_neg hq] at h
        exact List.mem_cons_of_mem q (storeGet_mem rest r d h)

/-- Claim C10: cartesian_exp_group leaves the caller's mapping unchanged —
the deep copy is a fresh object and the normalization loop mutates only the
copy, so after the call the caller's object id still holds exactly its old
value — and the result it returns from the mutated copy is the expansion of
the original value. -/
theorem cartesian_exp_group_frame (st : Store) (r : Nat) :
    storeGet (cartesian_exp_group_store st r).1 r = storeGet st r
    ∧ (∀ d, storeGet st r = some d →
        (cartesian_exp_group_store st r).2 = cartesian_exp_group d) := by
  constructor
  · cases hst : storeGet st r with
    | none => simp [cartesian_exp_group_store, hst]
    | some d =>
        have hmem : r ∈ st.map Prod.fst := storeGet_mem st r d hst
        have hlt : r < freshId st := Nat.lt_succ_of_le (le_foldr_max _ _ hmem)
        have hne : freshId st ≠ r := Nat.ne_of_gt hlt
        simp [cartesian_exp_group_store, hst, storeSet, storeGet, hne]
  · intro d hd
    simp only [cartesian_exp_group_store, hd]
    have h1 : (d.map (fun kv => (kv.1, PyVal.vlist (wrapList kv.2)))).map
        (fun kv => wrapList kv.2) = d.map (fun kv => wrapList kv.2) := by
      rw [List.map_map]
      rfl
    have h2 : (d.map (fun kv => (kv.1, PyVal.vlist (wrapList kv.2)))).map Prod.fst =
        d.map Prod.fst := by
      rw [List.map_map]
      rfl
    rw [cartesian_exp_group, h1, h2]

/-! ## is_subset: the contract, the frame of extra candidate keys, strict -/

/-- The spec's per-key tie-break rule coincides with the source loop's
per-key check. -/
theorem spec_key_check_eq (c : Dict) (k : String) (v : PyVal) :
    spec_key_check c k v = is_subsetVal v (dictGet c k) := by
  unfold spec_key_check is_subsetVal
  cases v <;> rcases dictGet c k with _ | w <;> rfl

/-- is_subset succeeds exactly when every key of the query passes the
per-key rule against the candidate. -/
theorem is_subset_iff_keys (q c : Dict) :
    is_subset q c = true ↔ ∀ kv ∈ q, spec_key_check c kv.1 kv.2 = true := by
  show is_subsetLoop q c = true ↔ _
  induction q with
  | nil => simp [is_subsetLoop]
  | cons kv rest ih =>
      obtain ⟨k, v⟩ := kv
      simp [is_subsetLoop, Bool.and_eq_true, ih, List.forall_mem_cons, spec_key_check_eq]

/-- A binding of the candidate under a key the query does not mention never
changes the verdict. -/
theorem is_subset_candidate_extension (q c : Dict) (k : String) (v : PyVal)
    (hk : k ∉ q.map Prod.fst) : is_subset q ((k, v) :: c) = is_subset q c := by
  show is_subsetLoop q ((k, v) :: c) = is_subsetLoop q c
  induction q with
  | nil => rfl
  | cons kv rest ih =>
      obtain ⟨k1, v1⟩ := kv
      have hk1 : k ≠ k1 := fun he => hk (by rw [he]; exact List.mem_cons_self _ _)
      have hrest : k ∉ rest.map Prod.fst := fun h => hk (List.mem_cons_of_mem _ h)
      simp only [is_subsetLoop]
      rw [ih hrest]
      rw [show dictGet ((k, v) :: c) k1 = dictGet c k1 from by simp [dictGet, hk1]]

/-- Claim C5: is_subset returns true iff every key of the query is present
in the candidate with an equal value, recursing into nested mappings on
both sides, a mapping/non-mapping mismatch (missing key against a mapping
included) failing the match, keys present only in the candidate never
affecting the result, the empty query matching every candidate; with the
spec's two concrete examples. -/
theorem is_subset_contract (q c : Dict) (k : String) (v : PyVal)
    (hk : k ∉ q.map Prod.fst) :
    (is_subset q c = true ↔ ∀ kv ∈ q, spec_key_check c kv.1 kv.2 = true)
    ∧ is_subset ([] : Dict) c = true
    ∧ is_subset q ((k, v) :: c) = is_subset q c
    ∧ is_subset [("model", PyVal.vdict [("name", PyVal.vstr "mlp")])]
        [("model", PyVal.vdict [("name", PyVal.vstr "mlp"), ("n_layers", PyVal.vint 30)]),
         ("dataset", PyVal.vstr "mnist")] = true
    ∧ is_subset [("model", PyVal.vdict [("name", PyVal.vstr "cnn")])]
        [("model", PyVal.vdict [("name", PyVal.vstr "mlp")])] = false :=
  ⟨is_subset_iff_keys q c, rfl, is_subset_candidate_extension q c k v hk, rfl, rfl⟩

/-- Witness for C5: the contract at the query model.name == "mlp" against
a candidate that also binds dataset, a key the query does not mention. -/
theorem is_subset_contract_witness :
    (is_subset [("model", PyVal.vdict [("name", PyVal.vstr "mlp")])]
        [("model", PyVal.vdict [("name", PyVal.vstr "mlp"), ("n_layers", PyVal.vint 30)])] = true
      ↔ ∀ kv ∈ [("model", PyVal.vdict [("name", PyVal.vstr "mlp")])],
          spec_key_check [("model", PyVal.vdict [("name", PyVal.vstr "mlp"),
            ("n_layers", PyVal.vint 30)])] kv.1 kv.2 = true)
    ∧ is_subset ([] : Dict)
        [("model", PyVal.vdict [("name", PyVal.vstr "mlp"), ("n_layers", PyVal.vint 30)])] = true
    ∧ is_subset [("model", PyVal.vdict [("name", PyVal.vstr "mlp")])]
        (("dataset", PyVal.vstr "mnist") ::
          [("model", PyVal.vdict [("name", PyVal.vstr "mlp"), ("n_layers", PyVal.vint 30)])]) =
      is_subset [("model", PyVal.vdict [("name", PyVal.vstr "mlp")])]
        [("model", PyVal.vdict [("name", PyVal.vstr "mlp"), ("n_layers", PyVal.vint 30)])]
    ∧ is_subset [("model", PyVal.vdict [("name", PyVal.vstr "mlp")])]
        [("model", PyVal.vdict [("name", PyVal.vstr "mlp"), ("n_layers", PyVal.vint 30)]),
         ("dataset", PyVal.vstr "mnist")] = true
    ∧ is_subset [("model", PyVal.vdict [("name", PyVal.vstr "cnn")])]
        [("model", PyVal.vdict [("name", PyVal.vstr "mlp")])] = false :=
  is_subset_contract [("model", PyVal.vdict [("name", PyVal.vstr "mlp")])]
    [("model", PyVal.vdict [("name", PyVal.vstr "mlp"), ("n_layers", PyVal.vint 30)])]
    "dataset" (PyVal.vstr "mnist") (by decide)

/-- Claim C9: the strict flag never changes the outcome of is_subset — the
source accepts it and ignores it, and its recursive calls leave it at the
default, so both values run the identical loop. -/
theorem is_subset_strict_no_op (q c : Dict) :
    is_subset q c true = is_subset q c false := rfl

/-! ## check_duplicates -/

/-- Shifting one fresh identity from the list into the seen set keeps the
no-duplicates condition of the check_duplicates loop. -/
theorem seen_shift_iff (x : String) (m seen : List String) (hin : x ∉ seen) :
    (m.Nodup ∧ ∀ h ∈ m, h ∉ x :: seen) ↔ ((x :: m).Nodup ∧ ∀ h ∈ x :: m, h ∉ seen) := by
  constructor
  · rintro ⟨hnd, hall⟩
    have hxm : x ∉ m := fun hm => (hall x hm) (List.mem_cons_self x seen)
    refine ⟨List.nodup_cons.mpr ⟨hxm, hnd⟩, ?_⟩
    intro h hm
    rcases List.mem_cons.mp hm with he | hm2
    · rw [he]
      exact hin
    · intro hs
      exact hall h hm2 (List.mem_cons_of_mem _ hs)
  · rintro ⟨hnd2, hall⟩
    obtain ⟨hxm, hnd⟩ := List.nodup_cons.mp hnd2
    refine ⟨hnd, ?_⟩
    intro h hm hmem
    rcases List.mem_cons.mp hmem with he | hs
    · rw [he] at hm
      exact hxm hm
    · exact hall h (List.mem_cons_of_mem _ hm) hs

/-- The loop of check_duplicates returns ok exactly when the hashes of the
remaining dicts are duplicate-free among themselves and against the
identities already seen, and otherwise the fixed ValueError message. -/
theorem checkDupGo_eq (md5 : String → String) : ∀ (l : List Dict) (seen : List String),
    checkDupGo md5 l seen =
      if (l.map (hash_dict md5)).Nodup ∧ ∀ h ∈ l.map (hash_dict md5), h ∉ seen
      then Except.ok () else Except.error "duplicate experiments detected..."
  | [], seen => by simp [checkDupGo]
  | d :: rest, seen => by
      by_cases hin : hash_dict md5 d ∈ seen
      · have hno : ¬(((d :: rest).map (hash_dict md5)).Nodup
            ∧ ∀ h ∈ (d :: rest).map (hash_dict md5), h ∉ seen) := by
          rintro ⟨-, hall⟩
          exact hall (hash_dict md5 d) (by simp) hin
        simp only [checkDupGo, if_pos hin, if_neg hno]
      · rw [checkDupGo]
        simp only [if_neg hin]
        rw [checkDupGo_eq md5 rest (hash_dict md5 d :: seen)]
        simp only [List.map_cons]
        exact if_congr (seen_shift_iff (hash_dict md5 d) (rest.map (hash_dict md5)) seen hin)
          rfl rfl

/-- Claim C6 as the code has it: check_duplicates raises ValueError with
the fixed message 'duplicate experiments detected...' exactly when two
positions of the list produce the same identity via hash_dict, and returns
nothing when all identities are distinct; in particular it fails on
[a == 1, a == 1] and succeeds on [a == 1, a == 2] whenever the digest
separates the two canonical strings "a/1" and "a/2". -/
theorem check_duplicates_spec (md5 : String → String) (l : List Dict)
    (hne : md5 "a/1" ≠ md5 "a/2") :
    check_duplicates md5 l =
      (if (l.map (hash_dict md5)).Nodup then Except.ok ()
       else Except.error "duplicate experiments detected...")
    ∧ check_duplicates md5 [[("a", PyVal.vint 1)], [("a", PyVal.vint 1)]] =
        Except.error "duplicate experiments detected..."
    ∧ check_duplicates md5 [[("a", PyVal.vint 1)], [("a", PyVal.vint 2)]] =
        Except.ok () := by
  have hmain : ∀ m : List Dict, check_duplicates md5 m =
      (if (m.map (hash_dict md5)).Nodup then Except.ok ()
       else Except.error "duplicate experiments detected...") := by
    intro m
    rw [check_duplicates, checkDupGo_eq]
    refine if_congr ?_ rfl rfl
    simp [List.not_mem_nil]
  refine ⟨hmain l, ?_, ?_⟩
  · rw [hmain]
    have : hash_dict md5 [("a", PyVal.vint 1)] = md5 "a/1" := rfl
    simp [this, List.nodup_cons]
  · rw [hmain]
    have h1 : hash_dict md5 [("a", PyVal.vint 1)] = md5 "a/1" := rfl
    have h2 : hash_dict md5 [("a", PyVal.vint 2)] = md5 "a/2" := rfl
    simp [h1, h2, List.nodup_cons, hne]

/-- Witness for C6: the identity digest separates "a/1" from "a/2". -/
theorem check_duplicates_spec_witness :
    check_duplicates idDigest [[("a", PyVal.vint 1)]] =
      (if ([[("a", PyVal.vint 1)]].map (hash_dict idDigest)).Nodup then Except.ok ()
       else Except.error "duplicate experiments detected...")
    ∧ check_duplicates idDigest [[("a", PyVal.vint 1)], [("a", PyVal.vint 1)]] =
        Except.error "duplicate experiments detected..."
    ∧ check_duplicates idDigest [[("a", PyVal.vint 1)], [("a", PyVal.vint 2)]] =
        Except.ok () :=
  check_duplicates_spec idDigest [[("a", PyVal.vint 1)]] (by decide)

/-- Claim C6 as frozen is refuted on one point: the raised error's message
is the constant string 'duplicate experiments detected...' whatever the
colliding identity is — the same message answers the collision of identity
"a/1" and the collision of the different identity "b/7" — so the error does
not name the colliding identity. -/
theorem check_duplicates_message_fixed :
    check_duplicates idDigest [[("a", PyVal.vint 1)], [("a", PyVal.vint 1)]] =
        Except.error "duplicate experiments detected..."
    ∧ check_duplicates idDigest [[("b", PyVal.vint 7)], [("b", PyVal.vint 7)]] =
        Except.error "duplicate experiments detected..."
    ∧ (hash_dict idDigest [("a", PyVal.vint 1)] ==
        hash_dict idDigest [("b", PyVal.vint 7)]) = false :=
  ⟨rfl, rfl, rfl⟩

/-! ## The atomic write protocol -/

/-- Reading back the path just written finds the written content. -/
theorem fsGet_fsSet_self (fs : FS) (p c : String) :
    fsGet (fsSet fs p c) p = some c := by
  simp [fsSet, fsGet]

/-- Writing one path leaves every other path unchanged. -/
theorem fsGet_fsSet_ne (fs : FS) (p c q : String) (h : p ≠ q) :
    fsGet (fsSet fs p c) q = fsGet fs q := by
  simp [fsSet, fsGet, h]

/-- A removed path no longer exists. -/
theorem fsGet_fsRemove_self : ∀ (fs : FS) (p : String), fsGet (fsRemove fs p) p = none
  | [], _ => rfl
  | (a, c) :: rest, p => by
      by_cases ha : a = p
      · subst ha
        simp only [fsRemove, List.filter_cons, beq_self_eq_true, Bool.not_true,
          Bool.false_eq_true, if_false]
        exact fsGet_fsRemove_self rest a
      · have hcond : (!(a == p)) = true := by simp [ha]
        simp only [fsRemove, List.filter_cons, hcond, if_true]
        rw [show fsGet ((a, c) :: List.filter (fun qc => !(qc.1 == p)) rest) p =
          fsGet (List.filter (fun qc => !(qc.1 == p)) rest) p from by simp [fsGet, ha]]
        exact fsGet_fsRemove_self rest p

/-- Removing one path leaves every other path unchanged. -/
theorem fsGet_fsRemove_ne : ∀ (fs : FS) (p q : String), p ≠ q →
    fsGet (fsRemove fs p) q = fsGet fs q
  | [], _, _, _ => rfl
  | (a, c) :: rest, p, q, h => by
      by_cases ha : a = p
      · subst ha
        have haq : a ≠ q := h
        simp only [fsRemove, List.filter_cons, beq_self_eq_true, Bool.not_true,
          Bool.false_eq_true, if_false]
        rw [show fsGet ((a, c) :: rest) q = fsGet rest q from by simp [fsGet, haq]]
        exact fsGet_fsRemove_ne rest a q h
      · have hcond : (!(a == p)) = true := by simp [ha]
        simp only [fsRemove, List.filter_cons, hcond, if_true]
        by_cases haq : a = q
        · simp [fsGet, haq]
        · rw [show fsGet ((a, c) :: List.filter (fun qc => !(qc.1 == p)) rest) q =
            fsGet (List.filter (fun qc => !(qc.1 == p)) rest) q from by simp [fsGet, haq]]
          rw [show fsGet ((a, c) :: rest) q = fsGet rest q from by simp [fsGet, haq]]
          exact fsGet_fsRemove_ne rest p q h

/-- A string stays distinct from itself with a nonempty suffix appended. -/
theorem append_ne_self (s t : String) (ht : t.data ≠ []) : s ++ t ≠ s := by
  intro h
  have hlen := congrArg String.length h
  rw [String.length_append] at hlen
  have hzero : t.length = 0 := by omega
  exact ht (List.length_eq_zero.mp hzero)

/-- At every observable instant of the write-temp, remove, rename protocol
the destination holds its old content, nothing, or the new complete bytes. -/
theorem rename_protocol_trichotomy (fs : FS) (fname tmp bytes : String)
    (htmp : tmp ≠ fname) (s : FS)
    (hs : s ∈ (fs :: ((List.range (bytes.length + 1)).map
        (fun k => fsSet fs tmp (bytes.take k))) ++
      [fsSet fs tmp bytes, fsRemove (fsSet fs tmp bytes) fname,
       fsRename (fsRemove (fsSet fs tmp bytes) fname) tmp fname])) :
    fsGet s fname = fsGet fs fname ∨ fsGet s fname = none
      ∨ fsGet s fname = some bytes := by
  rcases List.mem_cons.mp hs with h0 | hs1
  · rw [h0]
    exact Or.inl rfl
  rcases List.mem_append.mp hs1 with hp | hlast
  · obtain ⟨k, hk, he⟩ := List.mem_map.mp hp
    rw [← he]
    exact Or.inl (fsGet_fsSet_ne fs tmp _ fname htmp)
  rcases List.mem_cons.mp hlast with h1 | hrest
  · rw [h1]
    exact Or.inl (fsGet_fsSet_ne fs tmp bytes fname htmp)
  rcases List.mem_cons.mp hrest with h2 | hrest2
  · rw [h2]
    exact Or.inr (Or.inl (fsGet_fsRemove_self _ fname))
  rcases List.mem_cons.mp hrest2 with h3 | hnil
  · rw [h3]
    right; right
    have hget2 : fsGet (fsRemove (fsSet fs tmp bytes) fname) tmp = some bytes := by
      rw [fsGet_fsRemove_ne _ fname tmp (fun hh => htmp hh.symm)]
      exact fsGet_fsSet_self fs tmp bytes
    unfold fsRename
    rw [hget2]
    exact fsGet_fsSet_self _ fname bytes
  · exact absurd hnil (List.not_mem_nil s)

/-- Claim C3: at every state observable while save_pkl (with_rename) or
torch_save runs — initial state, every partial write of the temp file
where a crash can stop, the completed temp write, after the remove, after
the rename — the destination path holds the previous complete payload,
does not exist, or holds the new complete payload, never a partial write
(first two conjuncts); and a storage failure during the write of the temp
file, whatever prefix of the serialized bytes got out, leaves the
destination exactly untouched (last two conjuncts). -/
theorem atomic_write_trichotomy (pickle torchPickle : String → String) (fs : FS)
    (fname data obj : String) (s t : FS)
    (hs : s ∈ save_pkl_states pickle fs fname data)
    (ht : t ∈ torch_save_states torchPickle fs fname obj) :
    (fsGet s fname = fsGet fs fname ∨ fsGet s fname = none
      ∨ fsGet s fname = some (pickle data))
    ∧ (fsGet t fname = fsGet fs fname ∨ fsGet t fname = none
      ∨ fsGet t fname = some (torchPickle obj))
    ∧ (∀ k, fsGet (fsSet fs (fname ++ "_tmp.pth") ((pickle data).take k)) fname
        = fsGet fs fname)
    ∧ (∀ k, fsGet (fsSet fs (fname ++ ".tmp") ((torchPickle obj).take k)) fname
        = fsGet fs fname) := by
  have htmp1 : fname ++ "_tmp.pth" ≠ fname := append_ne_self fname "_tmp.pth" (by decide)
  have htmp2 : fname ++ ".tmp" ≠ fname := append_ne_self fname ".tmp" (by decide)
  refine ⟨?_, ?_, ?_, ?_⟩
  · exact rename_protocol_trichotomy fs fname (fname ++ "_tmp.pth") (pickle data) htmp1 s hs
  · exact rename_protocol_trichotomy fs fname (fname ++ ".tmp") (torchPickle obj) htmp2 t ht
  · intro k
    exact fsGet_fsSet_ne fs _ _ fname htmp1
  · intro k
    exact fsGet_fsSet_ne fs _ _ fname htmp2

/-- Witness for C3: the protocol run from the empty filesystem, observed at
its initial state. -/
theorem atomic_write_trichotomy_witness :
    (fsGet ([] : FS) "f" = fsGet ([] : FS) "f" ∨ fsGet ([] : FS) "f" = none
      ∨ fsGet ([] : FS) "f" = some (idDigest "d"))
    ∧ (fsGet ([] : FS) "f" = fsGet ([] : FS) "f" ∨ fsGet ([] : FS) "f" = none
      ∨ fsGet ([] : FS) "f" = some (revDigest "o"))
    ∧ (∀ k, fsGet (fsSet [] ("f" ++ "_tmp.pth") ((idDigest "d").take k)) "f"
        = fsGet ([] : FS) "f")
    ∧ (∀ k, fsGet (fsSet [] ("f" ++ ".tmp") ((revDigest "o").take k)) "f"
        = fsGet ([] : FS) "f") :=
  atomic_write_trichotomy idDigest revDigest [] "f" "d" "o" [] []
    (List.Mem.head _) (List.Mem.head _)

/-- Claim C7: a completed save_pkl followed by load_pkl of the same path
returns exactly the written payload — for both the atomic with_rename path
and the direct write — whenever the deserializer inverts the serializer
(pickle.load after pickle.dump, the library's round-trip contract). -/
theorem save_then_load_roundtrip (pickle unpickle : String → String)
    (hround : ∀ a, unpickle (pickle a) = a) (fs : FS) (fname data : String)
    (with_rename : Bool) :
    load_pkl unpickle (save_pkl pickle fs fname data with_rename) fname =
      Except.ok data := by
  have hfinal : fsGet (save_pkl pickle fs fname data with_rename) fname =
      some (pickle data) := by
    cases with_rename
    · exact fsGet_fsSet_self fs fname (pickle data)
    · have htmp : fname ++ "_tmp.pth" ≠ fname :=
        append_ne_self fname "_tmp.pth" (by decide)
      show fsGet (fsRename
        (fsRemove (fsSet fs (fname ++ "_tmp.pth") (pickle data)) fname)
        (fname ++ "_tmp.pth") fname) fname = some (pickle data)
      have hget2 : fsGet (fsRemove (fsSet fs (fname ++ "_tmp.pth") (pickle data)) fname)
          (fname ++ "_tmp.pth") = some (pickle data) := by
        rw [fsGet_fsRemove_ne _ fname _ (fun hh => htmp hh.symm)]
        exact fsGet_fsSet_self fs _ _
      unfold fsRename
      rw [hget2]
      exact fsGet_fsSet_self _ fname (pickle data)
  unfold load_pkl
  rw [hfinal]
  exact congrArg Except.ok (hround data)

/-- Witness for C7: writing "payload" at "f" atomically on the empty
filesystem and reading it back, with the identity serializer pair. -/
theorem save_then_load_roundtrip_witness :
    load_pkl idDigest (save_pkl idDigest [] "f" "payload" true) "f" =
      Except.ok "payload" :=
  save_then_load_roundtrip idDigest idDigest (fun _ => rfl) [] "f" "payload" true
